import Mathlib

/-!
Verification development for the password-manager vault core
(`password_manager.py`): key derivation, authenticated encryption,
entry store with upsert semantics, and the password generator.

Pure Python functions are translated directly; the SQLite-backed store is
modelled as explicit state passing over a `DB` value whose operations follow
the SQL statements issued by the code (`INSERT ... ON CONFLICT(service) DO
UPDATE SET username, password`, `DELETE WHERE service = ?`, single-row
`metadata` table).  Third-party cryptographic primitives (`cryptography.fernet`,
`hashlib.pbkdf2_hmac`, `os.urandom`) are not part of the repository; they are
modelled from the spec, with their contracts stated in doc comments.
-/

namespace PasswordManager

/-- Byte strings are lists of naturals (a faithful byte is `< 256`, but none of
the properties below depend on that bound). -/
abbrev Bytes := List Nat

/-- `str.encode("utf-8")` / the passage from a Python `str` to bytes, modelled
as the list of character codes (injective, which is all the code relies on). -/
def strToBytes (s : String) : Bytes := s.data.map Char.toNat

/-- `bytes.decode("utf-8")`: the inverse passage back to a string. -/
def bytesToStr (b : Bytes) : String := String.mk (b.map Char.ofNat)

/-- Error kinds raised by the program: `cryptography.fernet.InvalidToken`
(the spec's `IntegrityError`), the generator's `ValueError`s (the spec's
`ConfigurationError`), and `ValueError` from the `Fernet` constructor on a
malformed key. -/
inductive Err where
  | integrityError
  | configurationError
  | valueError
deriving DecidableEq

/-- Injective encoding of a byte string into a natural number
(2-adic valuation encoding): `encL [] = 0`, `encL (x :: xs) = 2^x * (2 * encL xs + 1)`. -/
def encL : Bytes → Nat
  | [] => 0
  | x :: xs => 2 ^ x * (2 * encL xs + 1)

/-- Modelled from the spec: the HMAC authentication tag of Fernet, idealised as
a perfectly collision-free MAC (the spec treats tag verification as absolute:
decryption "fails with an IntegrityError when the tag does not verify ...
this must never silently return garbage plaintext"). -/
def mac (key body : Bytes) : Nat := Nat.pair (encL key) (encL body)

/-- Modelled from the spec: `Fernet.encrypt` — authenticated encryption whose
output blob self-describes the payload and carries the authentication tag
(serialised here as `body ++ [tag]`). -/
def fernetEncrypt (key : Bytes) (m : Bytes) : Bytes := m ++ [mac key m]

/-- Modelled from the spec: `Fernet.decrypt` — parses the blob, verifies the
authentication tag against the key, and returns the payload; a malformed blob
or a failed tag check raises `InvalidToken` (the spec's `IntegrityError`). -/
def fernetDecrypt (key : Bytes) (blob : Bytes) : Except Err Bytes :=
  match blob.reverse with
  | [] => .error .integrityError
  | t :: revBody =>
    let body := revBody.reverse
    if t = mac key body then .ok body else .error .integrityError

/-- A constructed `Fernet` object, holding the key it was initialised with. -/
structure FernetHandle where
  key : Bytes
deriving DecidableEq

/-- Modelled from the spec: the `Fernet(key)` constructor, which accepts
exactly the 44-byte urlsafe-base64 encodings of 32-byte keys and raises
`ValueError` otherwise. -/
def fernetInit (key : Bytes) : Except Err FernetHandle :=
  if key.length = 44 then .ok ⟨key⟩ else .error .valueError

/-- Flip bit `bit` of byte `i` of a blob. -/
def flipBit (bs : Bytes) (i bit : Nat) : Bytes :=
  bs.set i (bs.getD i 0 ^^^ 2 ^ bit)

/-! ### Injectivity of the idealised MAC -/

theorem two_pow_mul_odd_inj {x a y b : Nat}
    (h : 2 ^ x * (2 * a + 1) = 2 ^ y * (2 * b + 1)) : x = y ∧ a = b := by
  induction x generalizing y with
  | zero =>
    cases y with
    | zero => simp only [pow_zero, one_mul] at h; omega
    | succ y =>
      rw [pow_zero, one_mul, pow_succ] at h
      have h2 : 2 * a + 1 = 2 * (2 ^ y * (2 * b + 1)) := by rw [h]; ring
      omega
  | succ x ih =>
    cases y with
    | zero =>
      rw [pow_zero, one_mul, pow_succ] at h
      have h2 : 2 * b + 1 = 2 * (2 ^ x * (2 * a + 1)) := by rw [← h]; ring
      omega
    | succ y =>
      rw [pow_succ, pow_succ] at h
      have h2 : 2 ^ x * (2 * a + 1) = 2 ^ y * (2 * b + 1) := by
        have hmul : 2 * (2 ^ x * (2 * a + 1)) = 2 * (2 ^ y * (2 * b + 1)) := by
          calc 2 * (2 ^ x * (2 * a + 1)) = 2 ^ x * 2 * (2 * a + 1) := by ring
            _ = 2 ^ y * 2 * (2 * b + 1) := h
            _ = 2 * (2 ^ y * (2 * b + 1)) := by ring
        omega
      obtain ⟨hxy, hab⟩ := ih h2
      exact ⟨by omega, hab⟩

theorem encL_inj : ∀ {a b : Bytes}, encL a = encL b → a = b := by
  intro a
  induction a with
  | nil =>
    intro b h
    cases b with
    | nil => rfl
    | cons y ys =>
      exfalso
      simp only [encL] at h
      have hp : 0 < 2 ^ y * (2 * encL ys + 1) := by positivity
      omega
  | cons x xs ih =>
    intro b h
    cases b with
    | nil =>
      exfalso
      simp only [encL] at h
      have hp : 0 < 2 ^ x * (2 * encL xs + 1) := by positivity
      omega
    | cons y ys =>
      simp only [encL] at h
      obtain ⟨hxy, he⟩ := two_pow_mul_odd_inj h
      rw [hxy, ih he]

theorem mac_inj {k k' b b' : Bytes} (h : mac k b = mac k' b') : k = k' ∧ b = b' := by
  unfold mac at h
  rw [Nat.pair_eq_pair] at h
  exact ⟨encL_inj h.1, encL_inj h.2⟩

/-! ### Cipher laws -/

theorem fernetDecrypt_fernetEncrypt (key m : Bytes) :
    fernetDecrypt key (fernetEncrypt key m) = .ok m := by
  simp [fernetDecrypt, fernetEncrypt]

theorem fernetDecrypt_wrong_key {key key' : Bytes} (m : Bytes) (h : key' ≠ key) :
    fernetDecrypt key' (fernetEncrypt key m) = .error .integrityError := by
  simp only [fernetDecrypt, fernetEncrypt, List.reverse_append, List.reverse_cons,
    List.reverse_nil, List.nil_append, List.singleton_append, List.reverse_reverse]
  rw [if_neg]
  intro hmac
  exact h (mac_inj hmac).1.symm

theorem xor_two_pow_ne (a bit : Nat) : a ^^^ 2 ^ bit ≠ a := by
  intro h
  have hc := Nat.xor_cancel_left a (2 ^ bit)
  rw [h, Nat.xor_self] at hc
  have hp : 0 < 2 ^ bit := pow_pos (by norm_num) bit
  omega

theorem fernetDecrypt_tampered (key m : Bytes) (i bit : Nat)
    (hi : i < (fernetEncrypt key m).length) :
    fernetDecrypt key (flipBit (fernetEncrypt key m) i bit) = .error .integrityError := by
  have hlen : (fernetEncrypt key m).length = m.length + 1 := by
    simp [fernetEncrypt]
  rcases Nat.lt_or_ge i m.length with hcase | hcase
  · -- the flipped byte lies in the payload: the tag no longer verifies
    have hval : (fernetEncrypt key m).getD i 0 = m.getD i 0 := by
      simp only [fernetEncrypt, List.getD_eq_getElem?_getD]
      rw [List.getElem?_append_left hcase]
    have hset : flipBit (fernetEncrypt key m) i bit
        = m.set i (m.getD i 0 ^^^ 2 ^ bit) ++ [mac key m] := by
      unfold flipBit
      rw [hval]
      simp only [fernetEncrypt]
      rw [List.set_append_left _ _ hcase]
    rw [hset]
    simp only [fernetDecrypt, List.reverse_append, List.reverse_cons, List.reverse_nil,
      List.nil_append, List.singleton_append, List.reverse_reverse]
    rw [if_neg]
    intro hmac
    have hbody : m = m.set i (m.getD i 0 ^^^ 2 ^ bit) := (mac_inj hmac).2
    have hgi : m[i]? = (m.set i (m.getD i 0 ^^^ 2 ^ bit))[i]? := by rw [← hbody]
    rw [List.getElem?_set_self hcase, List.getElem?_eq_getElem hcase] at hgi
    have hd : m.getD i 0 = m[i] := by
      rw [List.getD_eq_getElem?_getD, List.getElem?_eq_getElem hcase]
      rfl
    rw [hd] at hgi
    exact xor_two_pow_ne (m[i]) bit (Option.some.inj hgi).symm
  · -- the flipped byte is the tag itself
    have hieq : i = m.length := by omega
    subst hieq
    have hval : (fernetEncrypt key m).getD m.length 0 = mac key m := by
      simp only [fernetEncrypt, List.getD_eq_getElem?_getD]
      rw [List.getElem?_append_right (Nat.le_refl _)]
      simp
    have hset : flipBit (fernetEncrypt key m) m.length bit
        = m ++ [mac key m ^^^ 2 ^ bit] := by
      unfold flipBit
      rw [hval]
      simp only [fernetEncrypt]
      rw [List.set_append_right _ _ (Nat.le_refl _)]
      simp
    rw [hset]
    simp only [fernetDecrypt, List.reverse_append, List.reverse_cons, List.reverse_nil,
      List.nil_append, List.singleton_append, List.reverse_reverse]
    rw [if_neg]
    exact xor_two_pow_ne _ _

theorem fernetDecrypt_nil (key : Bytes) :
    fernetDecrypt key [] = .error .integrityError := by
  simp [fernetDecrypt]

theorem bytesToStr_strToBytes (s : String) : bytesToStr (strToBytes s) = s := by
  simp only [bytesToStr, strToBytes, List.map_map]
  have h1 : (Char.ofNat ∘ Char.toNat) = (id : Char → Char) := by
    funext c
    simp [Function.comp, Char.ofNat_toNat]
  rw [h1, List.map_id]

/-! ### Key derivation: PBKDF2 + urlsafe base64 -/

/-- One character of the urlsafe-base64 alphabet (`A-Z a-z 0-9 - _`), as a byte. -/
def b64char (n : Nat) : Nat :=
  if n < 26 then 65 + n
  else if n < 52 then 97 + (n - 26)
  else if n < 62 then 48 + (n - 52)
  else if n = 62 then 45
  else 95

/-- `base64.urlsafe_b64encode`: standard base64 over the urlsafe alphabet,
3-byte groups to 4 output bytes, final group padded with `=` (byte 61). -/
def b64encode : Bytes → Bytes
  | [] => []
  | [b1] => [b64char (b1 / 4), b64char (b1 % 4 * 16), 61, 61]
  | [b1, b2] => [b64char (b1 / 4), b64char (b1 % 4 * 16 + b2 / 16), b64char (b2 % 16 * 4), 61]
  | b1 :: b2 :: b3 :: rest =>
      b64char (b1 / 4) :: b64char (b1 % 4 * 16 + b2 / 16)
        :: b64char (b2 % 16 * 4 + b3 / 64) :: b64char (b3 % 64) :: b64encode rest

theorem b64encode_length : ∀ bs : Bytes, (b64encode bs).length = 4 * ((bs.length + 2) / 3)
  | [] => by simp only [b64encode, List.length_nil]
  | [b1] => by simp only [b64encode, List.length_cons, List.length_nil]
  | [b1, b2] => by simp only [b64encode, List.length_cons, List.length_nil]
  | b1 :: b2 :: b3 :: rest => by
    simp only [b64encode, List.length_cons, b64encode_length rest]
    omega

/-- Modelled from the spec: `hashlib.pbkdf2_hmac("sha256", password, salt, iterations, 32)` —
the salted, iterated key-derivation hash, deterministic in `(password, salt)`.  Only its
contract of returning exactly `dklen` bytes matters below; the byte values stand in for
the real PBKDF2-HMAC-SHA256 output. -/
def pbkdf2_hmac (password salt : Bytes) (iterations dklen : Nat) : Bytes :=
  (List.range dklen).map
    (fun i => Nat.pair (Nat.pair (encL password) (encL salt)) (Nat.pair iterations i) % 256)

def ITERATIONS : Nat := 390000

/-- `derive_key`: PBKDF2-HMAC-SHA256 with `ITERATIONS` iterations and `dklen=32`,
followed by `base64.urlsafe_b64encode`. -/
def derive_key (master_password : String) (salt : Bytes) : Bytes :=
  b64encode (pbkdf2_hmac (strToBytes master_password) salt ITERATIONS 32)

theorem pbkdf2_hmac_length (password salt : Bytes) (iterations dklen : Nat) :
    (pbkdf2_hmac password salt iterations dklen).length = dklen := by
  simp [pbkdf2_hmac]

theorem derive_key_length (master_password : String) (salt : Bytes) :
    (derive_key master_password salt).length = 44 := by
  rw [derive_key, b64encode_length, pbkdf2_hmac_length]

/-! ### Password generator -/

def UPPER : List Char := "ABCDEFGHIJKLMNOPQRSTUVWXYZ".data
def LOWER : List Char := "abcdefghijklmnopqrstuvwxyz".data
def DIGITS : List Char := "0123456789".data
def SYMBOLS : List Char := "!@#$%^&*()-_=+[]\x7b\x7d;:,.<>/?".data

/-- `secrets.choice(seq)`: a uniformly chosen element of `seq`, modelled as
selecting index `r % seq.length`, where `r` is the draw taken from the random
stream (`choice(range(i + 1))` is likewise `r % (i + 1)`). -/
def secretsChoice (seq : List Char) (r : Nat) : Char := seq.getD (r % seq.length) 'A'

/-- The `pools` list assembled from the four `use_*` flags. -/
def pools (use_upper use_lower use_digits use_symbols : Bool) : List (List Char) :=
  (if use_upper then [UPPER] else []) ++ (if use_lower then [LOWER] else [])
    ++ (if use_digits then [DIGITS] else []) ++ (if use_symbols then [SYMBOLS] else [])

/-- One swap `password_chars[i], password_chars[j] = password_chars[j], password_chars[i]`. -/
def swapL (l : List Char) (i j : Nat) : List Char :=
  (l.set i (l.getD j 'A')).set j (l.getD i 'A')

/-- The shuffle loop `for i in range(len(password_chars) - 1, 0, -1)` with
`j = choice(range(i + 1))`; `ctr` indexes the next unconsumed draw of `rnd`,
and the countdown argument is the current value of `i`. -/
def shuffleAux (rnd : Nat → Nat) : List Char → Nat → Nat → List Char
  | l, _, 0 => l
  | l, ctr, i + 1 => shuffleAux rnd (swapL l (i + 1) (rnd ctr % (i + 2))) (ctr + 1) i

def shuffle (l : List Char) (rnd : Nat → Nat) (ctr : Nat) : List Char :=
  shuffleAux rnd l ctr (l.length - 1)

/-- `generate_password`, with every call the code makes to `secrets.choice`
drawing the next value of the random stream `rnd`: the seed loop consumes draws
`0 .. len(pools)-1`, the fill loop draws `len(pools) .. length-1`, and the
shuffle draws from `length` on. -/
def generate_password (length : Nat) (use_upper use_lower use_digits use_symbols : Bool)
    (rnd : Nat → Nat) : Except Err (List Char) :=
  let ps := pools use_upper use_lower use_digits use_symbols
  if ps.isEmpty then .error .configurationError
  else if length < ps.length then .error .configurationError
  else
    let seed := (List.range ps.length).map (fun k => secretsChoice (ps.getD k []) (rnd k))
    let all_chars := ps.flatten
    let password_chars := seed ++ (List.range (length - ps.length)).map
      (fun k => secretsChoice all_chars (rnd (ps.length + k)))
    .ok (shuffle password_chars rnd length)

/-! ### Generator lemmas -/

theorem UPPER_ne_nil : UPPER ≠ [] := by decide
theorem LOWER_ne_nil : LOWER ≠ [] := by decide
theorem DIGITS_ne_nil : DIGITS ≠ [] := by decide
theorem SYMBOLS_ne_nil : SYMBOLS ≠ [] := by decide

theorem mem_ite_singleton {p : List Char} {c : Bool} {X : List Char}
    (h : p ∈ (if c then [X] else [])) : p = X := by
  cases c
  · simp at h
  · simpa using h

theorem pools_mem_ne_nil {uu ul ud us : Bool} {p : List Char}
    (hp : p ∈ pools uu ul ud us) : p ≠ [] := by
  simp only [pools, List.mem_append] at hp
  rcases hp with ((h | h) | h) | h
  · rw [mem_ite_singleton h]; exact UPPER_ne_nil
  · rw [mem_ite_singleton h]; exact LOWER_ne_nil
  · rw [mem_ite_singleton h]; exact DIGITS_ne_nil
  · rw [mem_ite_singleton h]; exact SYMBOLS_ne_nil

theorem secretsChoice_mem {seq : List Char} (hs : seq ≠ []) (r : Nat) :
    secretsChoice seq r ∈ seq := by
  unfold secretsChoice
  have hlen : 0 < seq.length := List.length_pos.mpr hs
  have hr : r % seq.length < seq.length := Nat.mod_lt _ hlen
  rw [List.getD_eq_getElem?_getD, List.getElem?_eq_getElem hr]
  simp

theorem swapL_length (l : List Char) (i j : Nat) : (swapL l i j).length = l.length := by
  simp [swapL]

theorem getElem?_swapL (l : List Char) (i j k : Nat) (hi : i < l.length) (hj : j < l.length) :
    (swapL l i j)[k]? =
      if j = k then some (l.getD i 'A')
      else if i = k then some (l.getD j 'A') else l[k]? := by
  unfold swapL
  rw [List.getElem?_set, List.getElem?_set]
  simp [List.length_set, hi, hj]

theorem mem_swapL {l : List Char} {i j : Nat} (hi : i < l.length) (hj : j < l.length)
    (x : Char) : x ∈ swapL l i j ↔ x ∈ l := by
  rw [List.mem_iff_getElem?, List.mem_iff_getElem?]
  constructor
  · rintro ⟨k, hk⟩
    rw [getElem?_swapL l i j k hi hj] at hk
    by_cases h1 : j = k
    · rw [if_pos h1] at hk
      refine ⟨i, ?_⟩
      rw [List.getElem?_eq_getElem hi, ← hk]
      rw [List.getD_eq_getElem?_getD, List.getElem?_eq_getElem hi]
      rfl
    · rw [if_neg h1] at hk
      by_cases h2 : i = k
      · rw [if_pos h2] at hk
        refine ⟨j, ?_⟩
        rw [List.getElem?_eq_getElem hj, ← hk]
        rw [List.getD_eq_getElem?_getD, List.getElem?_eq_getElem hj]
        rfl
      · rw [if_neg h2] at hk
        exact ⟨k, hk⟩
  · rintro ⟨k, hk⟩
    by_cases h2 : i = k
    · refine ⟨j, ?_⟩
      rw [getElem?_swapL l i j j hi hj, if_pos rfl]
      have hd : l.getD i 'A' = l[i] := by
        rw [List.getD_eq_getElem?_getD, List.getElem?_eq_getElem hi]
        rfl
      rw [hd]
      subst h2
      rw [List.getElem?_eq_getElem hi] at hk
      exact hk
    · by_cases h1 : j = k
      · refine ⟨i, ?_⟩
        rw [getElem?_swapL l i j i hi hj]
        have hij : ¬ j = i := by
          intro hji
          apply h2
          rw [← hji]
          exact h1
        rw [if_neg hij, if_pos rfl]
        have hd : l.getD j 'A' = l[j] := by
          rw [List.getD_eq_getElem?_getD, List.getElem?_eq_getElem hj]
          rfl
        rw [hd]
        subst h1
        rw [List.getElem?_eq_getElem hj] at hk
        exact hk
      · refine ⟨k, ?_⟩
        rw [getElem?_swapL l i j k hi hj, if_neg h1, if_neg h2]
        exact hk

theorem shuffleAux_length (rnd : Nat → Nat) (n : Nat) :
    ∀ (l : List Char) (ctr : Nat), (shuffleAux rnd l ctr n).length = l.length := by
  induction n with
  | zero => intro l ctr; rfl
  | succ n ih =>
    intro l ctr
    simp only [shuffleAux]
    rw [ih, swapL_length]

theorem mem_shuffleAux (rnd : Nat → Nat) (n : Nat) :
    ∀ (l : List Char) (ctr : Nat), n < l.length →
      ∀ x, (x ∈ shuffleAux rnd l ctr n ↔ x ∈ l) := by
  induction n with
  | zero => intro l ctr _ x; exact Iff.rfl
  | succ n ih =>
    intro l ctr hn x
    simp only [shuffleAux]
    have h1 : n + 1 < l.length := hn
    have hj : rnd ctr % (n + 2) < l.length := by
      have := Nat.mod_lt (rnd ctr) (show 0 < n + 2 by omega)
      omega
    rw [ih (swapL l (n + 1) (rnd ctr % (n + 2))) (ctr + 1) (by rw [swapL_length]; omega) x]
    exact mem_swapL h1 hj x

theorem shuffle_length (l : List Char) (rnd : Nat → Nat) (ctr : Nat) :
    (shuffle l rnd ctr).length = l.length :=
  shuffleAux_length rnd (l.length - 1) l ctr

theorem mem_shuffle {l : List Char} (hl : l ≠ []) (rnd : Nat → Nat) (ctr : Nat) (x : Char) :
    x ∈ shuffle l rnd ctr ↔ x ∈ l :=
  mem_shuffleAux rnd (l.length - 1) l ctr
    (by have : 0 < l.length := List.length_pos.mpr hl; omega) x

theorem generate_password_config_error (length : Nat) (uu ul ud us : Bool) (rnd : Nat → Nat)
    (h : pools uu ul ud us = [] ∨ length < (pools uu ul ud us).length) :
    generate_password length uu ul ud us rnd = .error .configurationError := by
  unfold generate_password
  by_cases he : (pools uu ul ud us).isEmpty
  · simp [he]
  · rcases h with h | h
    · rw [List.isEmpty_iff] at he
      exact absurd h he
    · simp [he, h]

theorem generate_password_ok (length : Nat) (uu ul ud us : Bool) (rnd : Nat → Nat)
    (hne : pools uu ul ud us ≠ []) (hlen : (pools uu ul ud us).length ≤ length) :
    ∃ res, generate_password length uu ul ud us rnd = .ok res ∧
      res.length = length ∧
      ∀ p ∈ pools uu ul ud us, ∃ c, c ∈ res ∧ c ∈ p := by
  have hemp : (pools uu ul ud us).isEmpty = false := by
    rw [List.isEmpty_eq_false]
    exact hne
  have hnl : ¬ length < (pools uu ul ud us).length := Nat.not_lt.mpr hlen
  unfold generate_password
  simp only [hemp, Bool.false_eq_true, if_false, if_neg hnl]
  set ps := pools uu ul ud us with hps
  set seed := (List.range ps.length).map (fun k => secretsChoice (ps.getD k []) (rnd k))
    with hseed
  set fill := (List.range (length - ps.length)).map
    (fun k => secretsChoice ps.flatten (rnd (ps.length + k))) with hfill
  have hclen : (seed ++ fill).length = length := by
    have h1 : 0 < ps.length := List.length_pos.mpr hne
    simp only [List.length_append, hseed, hfill, List.length_map, List.length_range]
    omega
  have hcne : seed ++ fill ≠ [] := by
    intro hc
    have := congrArg List.length hc
    rw [hclen] at this
    have h1 : 0 < ps.length := List.length_pos.mpr hne
    simp at this
    omega
  refine ⟨shuffle (seed ++ fill) rnd length, rfl, ?_, ?_⟩
  · rw [shuffle_length, hclen]
  · intro p hp
    obtain ⟨idx, hidx, hidxp⟩ := List.mem_iff_getElem.mp hp
    have hpne : p ≠ [] := pools_mem_ne_nil hp
    refine ⟨secretsChoice p (rnd idx), ?_, secretsChoice_mem hpne (rnd idx)⟩
    rw [mem_shuffle hcne rnd length]
    apply List.mem_append_left
    rw [hseed]
    refine List.mem_map.mpr ⟨idx, List.mem_range.mpr hidx, ?_⟩
    have hgd : ps.getD idx [] = p := by
      rw [List.getD_eq_getElem?_getD, List.getElem?_eq_getElem hidx]
      simpa using hidxp
    rw [hgd]

/-! ### The SQLite-backed store

The `vault.db` state: the single-row `metadata` table (salt + creation
timestamp, present or absent) and the `entries` table in insertion (rowid)
order.  Each operation is the explicit-state rendering of the SQL the code
runs; `conn.commit()` makes the returned state the durable one. -/

/-- One row of the `entries` table. -/
structure Row where
  service : String
  username : String
  password : Bytes
  created_at : String
deriving DecidableEq

/-- The persistent state of `vault.db`. -/
structure DB where
  metadata : Option (Bytes × String)
  entries : List Row
deriving DecidableEq

/-- A fresh `vault.db` before any operation. -/
def emptyDB : DB := ⟨none, []⟩

/-- `init_db`: `CREATE TABLE IF NOT EXISTS` for both tables — idempotent schema
creation, no change to stored data. -/
def init_db (db : DB) : DB := db

/-- Modelled from the spec: `os.urandom(n)` — `n` cryptographically random
bytes, supplied here by the entropy stream `entropy`. -/
def urandom (n : Nat) (entropy : Nat → Nat) : Bytes :=
  (List.range n).map (fun i => entropy i % 256)

/-- `get_or_create_salt`: return the salt of the metadata row if one exists;
otherwise generate 16 random bytes, insert the single metadata row
(`id = 1`) with the current timestamp, commit, and return the new salt. -/
def get_or_create_salt (db : DB) (entropy : Nat → Nat) (now : String) : Bytes × DB :=
  match db.metadata with
  | some (salt, _) => (salt, db)
  | none =>
    let salt := urandom 16 entropy
    (salt, { db with metadata := some (salt, now) })

/-- The `Entry` dataclass returned by `get_entry` (with the password decrypted). -/
structure Entry where
  service : String
  username : String
  password : String
  created_at : String
deriving DecidableEq

/-- `add_entry`: encrypt the raw password under the session cipher and run
`INSERT INTO entries ... ON CONFLICT(service) DO UPDATE SET
username=excluded.username, password=excluded.password` — on a fresh service
the row (with `created_at = now`) is appended, on a conflicting service the
existing row's `username` and `password` columns are overwritten. -/
def add_entry (service username raw_password : String) (fernet : FernetHandle)
    (now : String) (db : DB) : DB :=
  let encrypted := fernetEncrypt fernet.key (strToBytes raw_password)
  let rows := db.entries
  let rows2 :=
    if rows.any (fun r => r.service == service) then
      rows.map (fun r =>
        if r.service == service then
          { r with username := username, password := encrypted }
        else r)
    else rows ++ [⟨service, username, encrypted, now⟩]
  { db with entries := rows2 }

/-- `get_entry`: `SELECT ... WHERE service = ?`; `None` when no row matches,
otherwise decrypt the stored blob (raising `InvalidToken` = the spec's
`IntegrityError` when verification fails) and build the `Entry`. -/
def get_entry (service : String) (fernet : FernetHandle) (db : DB) :
    Except Err (Option Entry) :=
  match db.entries.find? (fun r => r.service == service) with
  | none => .ok none
  | some r =>
    match fernetDecrypt fernet.key r.password with
    | .ok m => .ok (some ⟨r.service, r.username, bytesToStr m, r.created_at⟩)
    | .error e => .error e

/-- `list_services`: `SELECT service FROM entries ORDER BY service`. -/
def list_services (db : DB) : List String :=
  (db.entries.map (fun r => r.service)).mergeSort (fun a b => decide (a ≤ b))

/-- `delete_entry`: `DELETE FROM entries WHERE service = ?`, returning
`cur.rowcount > 0` (whether any row was removed) together with the
committed state. -/
def delete_entry (service : String) (db : DB) : Bool × DB :=
  (db.entries.any (fun r => r.service == service),
   { db with entries := db.entries.filter (fun r => !(r.service == service)) })

/-- `encrypt_password`: open the vault — initialize the schema, obtain or
create the salt, derive the session key, and construct the `Fernet` handle.
No passphrase verification happens here. -/
def encrypt_password (master_password : String) (entropy : Nat → Nat) (now : String)
    (db : DB) : Except Err (FernetHandle × DB) :=
  let db1 := init_db db
  let sd := get_or_create_salt db1 entropy now
  let key := derive_key master_password sd.1
  (fernetInit key).map (fun f => (f, sd.2))

/-! ### Store lemmas -/

theorem urandom_length (n : Nat) (entropy : Nat → Nat) : (urandom n entropy).length = n := by
  simp [urandom]

/-- Looking up the service just upserted finds a row carrying the new username
and the fresh ciphertext. -/
theorem find?_add_entry (service username raw_password : String) (fernet : FernetHandle)
    (now : String) (db : DB) :
    ∃ r, (add_entry service username raw_password fernet now db).entries.find?
          (fun x => x.service == service) = some r ∧
        r.username = username ∧
        r.password = fernetEncrypt fernet.key (strToBytes raw_password) := by
  unfold add_entry
  cases hany : db.entries.any (fun r => r.service == service) with
  | false =>
    simp only [hany, Bool.false_eq_true, if_false]
    have hnone : db.entries.find? (fun x => x.service == service) = none := by
      rw [List.find?_eq_none]
      intro x hx
      have := List.any_eq_false.mp hany x hx
      simpa using this
    refine ⟨⟨service, username, fernetEncrypt fernet.key (strToBytes raw_password), now⟩,
      ?_, rfl, rfl⟩
    rw [List.find?_append, hnone]
    simp [List.find?]
  | true =>
    simp only [hany, if_true]
    obtain ⟨r0, hr0mem, hr0p⟩ := List.any_eq_true.mp hany
    have hsome : (db.entries.find? (fun x => x.service == service)).isSome := by
      rw [List.find?_isSome]
      exact ⟨r0, hr0mem, hr0p⟩
    obtain ⟨r1, hr1⟩ := Option.isSome_iff_exists.mp hsome
    have hr1e : r1.service = service := by
      have := List.find?_some hr1
      simpa using this
    have hcomp : (fun x : Row => x.service == service) ∘
        (fun r : Row => if r.service == service then
          { r with username := username,
                   password := fernetEncrypt fernet.key (strToBytes raw_password) }
        else r) = (fun x : Row => x.service == service) := by
      funext r
      by_cases hr : r.service = service
      · simp [hr]
      · simp [hr]
    rw [List.find?_map, hcomp, hr1]
    exact ⟨_, rfl, by simp [hr1e], by simp [hr1e]⟩

/-- When the upsert hits an existing row, that row keeps its `created_at` and
only `username`/`password` change. -/
theorem find?_add_entry_existing (service username raw_password : String)
    (fernet : FernetHandle) (now : String) (db : DB) (r0 : Row)
    (h : db.entries.find? (fun x => x.service == service) = some r0) :
    (add_entry service username raw_password fernet now db).entries.find?
        (fun x => x.service == service)
      = some { r0 with username := username,
                       password := fernetEncrypt fernet.key (strToBytes raw_password) } := by
  have hmem := List.mem_of_find?_eq_some h
  have hp : r0.service = service := by
    have := List.find?_some h
    simpa using this
  have hany : db.entries.any (fun r => r.service == service) = true :=
    List.any_eq_true.mpr ⟨r0, hmem, by simp [hp]⟩
  simp only [add_entry]
  rw [if_pos hany]
  have hcomp : (fun x : Row => x.service == service) ∘
      (fun r : Row => if r.service == service then
        { r with username := username,
                 password := fernetEncrypt fernet.key (strToBytes raw_password) }
      else r) = (fun x : Row => x.service == service) := by
    funext r
    by_cases hr : r.service = service
    · simp [hr]
    · simp [hr]
  rw [List.find?_map, hcomp, h]
  simp [hp]

/-- Retrieval after an upsert decrypts back to exactly the raw password. -/
theorem get_entry_add_entry (service username raw_password : String)
    (fernet : FernetHandle) (now : String) (db : DB) :
    ∃ e, get_entry service fernet (add_entry service username raw_password fernet now db)
          = .ok (some e) ∧
        e.password = raw_password ∧ e.username = username := by
  obtain ⟨r, hfind, huser, hpw⟩ :=
    find?_add_entry service username raw_password fernet now db
  simp only [get_entry, hfind]
  rw [hpw, fernetDecrypt_fernetEncrypt]
  exact ⟨_, rfl, bytesToStr_strToBytes raw_password, huser⟩

/-- A decryption failure on the stored blob propagates out of `get_entry`. -/
theorem get_entry_propagates (service : String) (fernet : FernetHandle) (db : DB)
    (r : Row) (e : Err)
    (hfind : db.entries.find? (fun x => x.service == service) = some r)
    (hdec : fernetDecrypt fernet.key r.password = .error e) :
    get_entry service fernet db = .error e := by
  simp only [get_entry, hfind, hdec]

/-- `get_entry` on an absent service is the normal empty result. -/
theorem get_entry_absent (service : String) (fernet : FernetHandle) (db : DB)
    (h : ∀ r ∈ db.entries, r.service ≠ service) :
    get_entry service fernet db = .ok none := by
  have hnone : db.entries.find? (fun x => x.service == service) = none := by
    rw [List.find?_eq_none]
    intro x hx
    simpa using h x hx
  simp only [get_entry, hnone]

theorem add_entry_metadata (service username raw_password : String) (fernet : FernetHandle)
    (now : String) (db : DB) :
    (add_entry service username raw_password fernet now db).metadata = db.metadata := rfl

theorem delete_entry_metadata (service : String) (db : DB) :
    (delete_entry service db).2.metadata = db.metadata := rfl

/-- Services remain pairwise distinct across an upsert. -/
theorem add_entry_nodup (service username raw_password : String) (fernet : FernetHandle)
    (now : String) (db : DB)
    (h : (db.entries.map (fun r => r.service)).Nodup) :
    ((add_entry service username raw_password fernet now db).entries.map
      (fun r => r.service)).Nodup := by
  unfold add_entry
  cases hany : db.entries.any (fun r => r.service == service) with
  | true =>
    simp only [hany, if_true, List.map_map]
    have hcomp : ((fun r : Row => r.service) ∘
        (fun r : Row => if r.service == service then
          { r with username := username,
                   password := fernetEncrypt fernet.key (strToBytes raw_password) }
        else r)) = (fun r : Row => r.service) := by
      funext r
      by_cases hr : r.service = service
      · simp [hr]
      · simp [hr]
    rw [hcomp]
    exact h
  | false =>
    simp only [hany, Bool.false_eq_true, if_false, List.map_append, List.map_cons,
      List.map_nil]
    rw [List.nodup_append]
    refine ⟨h, List.nodup_singleton service, ?_⟩
    intro s hs hs'
    rw [List.mem_singleton] at hs'
    subst hs'
    obtain ⟨r, hrmem, hrs⟩ := List.mem_map.mp hs
    have := List.any_eq_false.mp hany r hrmem
    rw [hrs] at this
    simp at this

/-- Services remain pairwise distinct across a delete. -/
theorem delete_entry_nodup (service : String) (db : DB)
    (h : (db.entries.map (fun r => r.service)).Nodup) :
    (((delete_entry service db).2).entries.map (fun r => r.service)).Nodup := by
  unfold delete_entry
  exact ((List.filter_sublist db.entries).map (fun r => r.service)).nodup h

/-- `delete_entry` reports a removal exactly when a row for the service existed. -/
theorem delete_entry_rowcount (service : String) (db : DB) :
    (delete_entry service db).1 = true ↔ ∃ r ∈ db.entries, r.service = service := by
  unfold delete_entry
  rw [List.any_eq_true]
  constructor
  · rintro ⟨r, hr, hp⟩
    exact ⟨r, hr, by simpa using hp⟩
  · rintro ⟨r, hr, hp⟩
    exact ⟨r, hr, by simpa using hp⟩

/-- After a delete, lookup of that service is the normal empty result. -/
theorem get_entry_after_delete (service : String) (fernet : FernetHandle) (db : DB) :
    get_entry service fernet (delete_entry service db).2 = .ok none := by
  apply get_entry_absent
  intro r hr
  unfold delete_entry at hr
  simp only [List.mem_filter] at hr
  simpa using hr.2

/-- Opening the vault never fails: the derived key is always a valid Fernet key. -/
theorem encrypt_password_ok (master_password : String) (entropy : Nat → Nat)
    (now : String) (db : DB) :
    encrypt_password master_password entropy now db
      = .ok (⟨derive_key master_password (get_or_create_salt db entropy now).1⟩,
             (get_or_create_salt db entropy now).2) := by
  simp only [encrypt_password, init_db, fernetInit]
  rw [if_pos (derive_key_length master_password (get_or_create_salt db entropy now).1)]
  rfl

/-! ### The claims -/

/-- Claim C1: for every key and plaintext, decrypting the ciphertext produced by
encrypting it under that key returns exactly the plaintext; consequently after
`add_entry` stores an entry, `get_entry` with the same cipher handle returns an
`Entry` whose password field equals the raw password. -/
theorem claim_C1 :
    (∀ (key m : Bytes), fernetDecrypt key (fernetEncrypt key m) = .ok m) ∧
    (∀ (service username raw_password : String) (fernet : FernetHandle)
        (now : String) (db : DB),
      ∃ e, get_entry service fernet (add_entry service username raw_password fernet now db)
            = .ok (some e) ∧ e.password = raw_password) := by
  refine ⟨fernetDecrypt_fernetEncrypt, ?_⟩
  intro service username raw_password fernet now db
  obtain ⟨e, h1, h2, _⟩ := get_entry_add_entry service username raw_password fernet now db
  exact ⟨e, h1, h2⟩

/-- Claim C2: decryption fails with `IntegrityError` — never returning altered
or garbage plaintext — under a wrong key, after flipping any bit of the blob,
or on a malformed blob; and `get_entry` propagates the error unchanged. -/
theorem claim_C2 :
    (∀ (key key' m : Bytes), key' ≠ key →
      fernetDecrypt key' (fernetEncrypt key m) = .error .integrityError) ∧
    (∀ (key m : Bytes) (i bit : Nat), i < (fernetEncrypt key m).length →
      fernetDecrypt key (flipBit (fernetEncrypt key m) i bit) = .error .integrityError) ∧
    (∀ key : Bytes, fernetDecrypt key [] = .error .integrityError) ∧
    (∀ (service : String) (fernet : FernetHandle) (db : DB) (r : Row) (e : Err),
      db.entries.find? (fun x => x.service == service) = some r →
      fernetDecrypt fernet.key r.password = .error e →
      get_entry service fernet db = .error e) :=
  ⟨fun _ _ m h => fernetDecrypt_wrong_key m h,
   fernetDecrypt_tampered,
   fernetDecrypt_nil,
   get_entry_propagates⟩

theorem claim_C2_witness :
    fernetDecrypt [1] (fernetEncrypt [0] [7]) = .error .integrityError ∧
    fernetDecrypt [0] (flipBit (fernetEncrypt [0] [7]) 0 0) = .error .integrityError ∧
    fernetDecrypt [0] [] = .error .integrityError ∧
    get_entry "svc" ⟨[0]⟩ ⟨none, [⟨"svc", "u", [9], "t"⟩]⟩ = .error .integrityError :=
  ⟨claim_C2.1 [0] [1] [7] (by decide),
   claim_C2.2.1 [0] [7] 0 0 (by decide),
   claim_C2.2.2.1 [0],
   claim_C2.2.2.2 "svc" ⟨[0]⟩ ⟨none, [⟨"svc", "u", [9], "t"⟩]⟩ ⟨"svc", "u", [9], "t"⟩
     .integrityError (by simp) rfl⟩

/-- Claim C3 is false on the code: `derive_key` returns the urlsafe-base64
encoding of the 32-byte PBKDF2 output, which is 44 bytes, not 32. -/
theorem claim_C3_counterexample :
    (derive_key "" (List.replicate 16 0)).length ≠ 32 := by decide

/-- Claim C3 (amended): for every passphrase and salt, `derive_key` returns the
44-byte urlsafe-base64 encoding of a 32-byte PBKDF2-derived key. -/
theorem claim_C3 (master_password : String) (salt : Bytes) :
    (pbkdf2_hmac (strToBytes master_password) salt ITERATIONS 32).length = 32 ∧
    (derive_key master_password salt).length = 44 :=
  ⟨pbkdf2_hmac_length _ _ _ _, derive_key_length _ _⟩

/-- Claim C4: the entry store keeps at most one entry per service (services stay
pairwise distinct under add and delete, starting from the empty vault), and
upserting an existing service replaces its username and ciphertext in place:
after adding ("github","alice","pw1") then ("github","alice2","pw2"), exactly
one "github" entry exists and its username is "alice2". -/
theorem claim_C4 :
    (emptyDB.entries.map (fun r => r.service)).Nodup ∧
    (∀ (service username raw_password : String) (fernet : FernetHandle) (now : String)
        (db : DB), (db.entries.map (fun r => r.service)).Nodup →
      ((add_entry service username raw_password fernet now db).entries.map
        (fun r => r.service)).Nodup) ∧
    (∀ (service : String) (db : DB), (db.entries.map (fun r => r.service)).Nodup →
      (((delete_entry service db).2).entries.map (fun r => r.service)).Nodup) ∧
    (∀ (fernet : FernetHandle) (t1 t2 : String),
      ((add_entry "github" "alice2" "pw2" fernet t2
          (add_entry "github" "alice" "pw1" fernet t1 emptyDB)).entries.filter
        (fun r => r.service == "github")).length = 1 ∧
      ∃ r, (add_entry "github" "alice2" "pw2" fernet t2
          (add_entry "github" "alice" "pw1" fernet t1 emptyDB)).entries.find?
            (fun x => x.service == "github") = some r ∧ r.username = "alice2") := by
  refine ⟨by simp [emptyDB], add_entry_nodup, delete_entry_nodup, ?_⟩
  intro fernet t1 t2
  have h2 : (add_entry "github" "alice2" "pw2" fernet t2
      (add_entry "github" "alice" "pw1" fernet t1 emptyDB)).entries
      = [⟨"github", "alice2", fernetEncrypt fernet.key (strToBytes "pw2"), t1⟩] := by
    simp [add_entry, emptyDB]
  rw [h2]
  refine ⟨by simp, ⟨"github", "alice2", fernetEncrypt fernet.key (strToBytes "pw2"), t1⟩,
    by simp [List.find?], rfl⟩

theorem claim_C4_witness :
    ((emptyDB.entries.map (fun r => r.service)).Nodup) ∧
    (((add_entry "github" "alice" "pw1" ⟨[]⟩ "t1" emptyDB).entries.map
      (fun r => r.service)).Nodup) ∧
    ((((delete_entry "github" (add_entry "github" "alice" "pw1" ⟨[]⟩ "t1"
      emptyDB)).2).entries.map (fun r => r.service)).Nodup) :=
  ⟨by simp [emptyDB],
   claim_C4.2.1 "github" "alice" "pw1" ⟨[]⟩ "t1" emptyDB (by simp [emptyDB]),
   claim_C4.2.2.1 "github" (add_entry "github" "alice" "pw1" ⟨[]⟩ "t1" emptyDB)
     (claim_C4.2.1 "github" "alice" "pw1" ⟨[]⟩ "t1" emptyDB (by simp [emptyDB]))⟩

/-- Claim C5: whenever at least one character class is selected and the length
is at least the number of selected classes, `generate_password` returns a
string of exactly the requested length containing at least one character from
each selected class. -/
theorem claim_C5 (length : Nat) (use_upper use_lower use_digits use_symbols : Bool)
    (rnd : Nat → Nat)
    (hne : pools use_upper use_lower use_digits use_symbols ≠ [])
    (hlen : (pools use_upper use_lower use_digits use_symbols).length ≤ length) :
    ∃ res, generate_password length use_upper use_lower use_digits use_symbols rnd
        = .ok res ∧
      res.length = length ∧
      ∀ p ∈ pools use_upper use_lower use_digits use_symbols, ∃ c, c ∈ res ∧ c ∈ p :=
  generate_password_ok length use_upper use_lower use_digits use_symbols rnd hne hlen

theorem claim_C5_witness :
    (pools true true true true ≠ [] ∧ (pools true true true true).length ≤ 8) ∧
    (∃ res, generate_password 8 true true true true (fun n => n) = .ok res ∧
      res.length = 8 ∧
      ∀ p ∈ pools true true true true, ∃ c, c ∈ res ∧ c ∈ p) :=
  ⟨⟨by decide, by decide⟩,
   claim_C5 8 true true true true (fun n => n) (by decide) (by decide)⟩

/-- Claim C6: `generate_password` fails with the configuration error — an error
kind distinct from the integrity kind — whenever no character class is selected
or the requested length is below the number of selected classes. -/
theorem claim_C6 :
    (∀ (length : Nat) (use_upper use_lower use_digits use_symbols : Bool)
        (rnd : Nat → Nat),
      pools use_upper use_lower use_digits use_symbols = [] ∨
        length < (pools use_upper use_lower use_digits use_symbols).length →
      generate_password length use_upper use_lower use_digits use_symbols rnd
        = .error .configurationError) ∧
    Err.configurationError ≠ Err.integrityError :=
  ⟨generate_password_config_error, by decide⟩

theorem claim_C6_witness :
    (pools true true true true = [] ∨ 2 < (pools true true true true).length) ∧
    generate_password 2 true true true true (fun n => n) = .error .configurationError :=
  ⟨by decide, claim_C6.1 2 true true true true (fun n => n) (by decide)⟩

/-- Claim C7: the salt is created exactly once, on first access, as 16 random
bytes, and is immutable thereafter: the creating call persists a 16-byte salt,
a call on a vault that has one returns it unchanged, a repeated call returns
the salt of the first call, and add/delete leave the metadata untouched. -/
theorem claim_C7 :
    (∀ (db : DB) (entropy : Nat → Nat) (now : String), db.metadata = none →
      (get_or_create_salt db entropy now).1.length = 16 ∧
      (get_or_create_salt db entropy now).2.metadata
        = some ((get_or_create_salt db entropy now).1, now)) ∧
    (∀ (db : DB) (entropy : Nat → Nat) (now : String) (salt : Bytes) (t : String),
      db.metadata = some (salt, t) →
      get_or_create_salt db entropy now = (salt, db)) ∧
    (∀ (db : DB) (e1 e2 : Nat → Nat) (n1 n2 : String),
      get_or_create_salt (get_or_create_salt db e1 n1).2 e2 n2
        = ((get_or_create_salt db e1 n1).1, (get_or_create_salt db e1 n1).2)) ∧
    (∀ (service username raw_password : String) (fernet : FernetHandle) (now : String)
        (db : DB),
      (add_entry service username raw_password fernet now db).metadata = db.metadata) ∧
    (∀ (service : String) (db : DB), (delete_entry service db).2.metadata = db.metadata) := by
  refine ⟨?_, ?_, ?_, add_entry_metadata, delete_entry_metadata⟩
  · intro db entropy now h
    constructor
    · simp [get_or_create_salt, h, urandom_length]
    · simp [get_or_create_salt, h]
  · intro db entropy now salt t h
    simp [get_or_create_salt, h]
  · intro db e1 e2 n1 n2
    cases hm : db.metadata with
    | none => simp [get_or_create_salt, hm]
    | some p =>
      obtain ⟨s, t⟩ := p
      simp [get_or_create_salt, hm]

theorem claim_C7_witness :
    (emptyDB.metadata = none) ∧
    ((get_or_create_salt emptyDB (fun n => n) "t0").1.length = 16 ∧
     (get_or_create_salt emptyDB (fun n => n) "t0").2.metadata
        = some ((get_or_create_salt emptyDB (fun n => n) "t0").1, "t0")) ∧
    (get_or_create_salt (⟨some ([5], "t0"), []⟩ : DB) (fun n => n) "t1"
        = ([5], (⟨some ([5], "t0"), []⟩ : DB))) :=
  ⟨rfl,
   claim_C7.1 emptyDB (fun n => n) "t0" rfl,
   claim_C7.2.1 (⟨some ([5], "t0"), []⟩ : DB) (fun n => n) "t1" [5] "t0" rfl⟩

/-- Claim C8 is false on the code: the SQL upsert updates only `username` and
`password`, so the overwritten row keeps its original `created_at` ("t1")
rather than receiving the new timestamp ("t2"). -/
theorem claim_C8_counterexample :
    (add_entry "github" "alice2" "pw2" ⟨[]⟩ "t2"
        (add_entry "github" "alice" "pw1" ⟨[]⟩ "t1" emptyDB)).entries.map
      (fun r => r.created_at) = ["t1"] ∧ ("t1" : String) ≠ "t2" := by
  constructor
  · simp [add_entry, emptyDB]
  · decide

/-- Claim C8 (amended): the upsert is timestamp-preserving: overwriting an
existing service replaces the row's username and secret ciphertext but keeps
its original `created_at`. -/
theorem claim_C8 (service username raw_password : String) (fernet : FernetHandle)
    (now : String) (db : DB) (r0 : Row)
    (h : db.entries.find? (fun x => x.service == service) = some r0) :
    (add_entry service username raw_password fernet now db).entries.find?
        (fun x => x.service == service)
      = some { r0 with username := username,
                       password := fernetEncrypt fernet.key (strToBytes raw_password) } :=
  find?_add_entry_existing service username raw_password fernet now db r0 h

theorem claim_C8_witness :
    (List.find? (fun x => x.service == "github")
        [(⟨"github", "alice", [5], "t1"⟩ : Row)] = some ⟨"github", "alice", [5], "t1"⟩) ∧
    ((add_entry "github" "alice2" "pw2" ⟨[]⟩ "t2"
        (⟨none, [⟨"github", "alice", [5], "t1"⟩]⟩ : DB)).entries.find?
        (fun x => x.service == "github")
      = some ⟨"github", "alice2", fernetEncrypt [] (strToBytes "pw2"), "t1"⟩) :=
  ⟨by simp,
   claim_C8 "github" "alice2" "pw2" ⟨[]⟩ "t2"
     (⟨none, [⟨"github", "alice", [5], "t1"⟩]⟩ : DB)
     ⟨"github", "alice", [5], "t1"⟩ (by simp)⟩

/-- Claim C9: lookup or delete of an absent service is a normal empty result:
`get_entry` returns `none` without an error, `delete_entry` returns `false`
unless a row existed (and `true` exactly when one did), and after a delete the
service looks up as absent. -/
theorem claim_C9 :
    (∀ (service : String) (fernet : FernetHandle) (db : DB),
      (∀ r ∈ db.entries, r.service ≠ service) →
      get_entry service fernet db = .ok none) ∧
    (∀ (service : String) (db : DB),
      ((delete_entry service db).1 = true ↔ ∃ r ∈ db.entries, r.service = service)) ∧
    (∀ (service : String) (fernet : FernetHandle) (db : DB),
      get_entry service fernet (delete_entry service db).2 = .ok none) :=
  ⟨get_entry_absent, delete_entry_rowcount, get_entry_after_delete⟩

theorem claim_C9_witness :
    (∀ r ∈ emptyDB.entries, r.service ≠ "email") ∧
    get_entry "email" ⟨[]⟩ emptyDB = .ok none ∧
    ((delete_entry "nonexistent" emptyDB).1 = true ↔
      ∃ r ∈ emptyDB.entries, r.service = "nonexistent") :=
  ⟨by simp [emptyDB],
   claim_C9.1 "email" ⟨[]⟩ emptyDB (by simp [emptyDB]),
   claim_C9.2.1 "nonexistent" emptyDB⟩

/-- Claim C10: opening the vault performs no passphrase verification:
`encrypt_password` succeeds and returns a cipher handle for every passphrase;
a wrong passphrase surfaces only later, as `get_entry` failing its decryption
integrity check (whenever the session key differs from the key a stored blob
was encrypted under). -/
theorem claim_C10 :
    (∀ (master_password : String) (entropy : Nat → Nat) (now : String) (db : DB),
      ∃ (f : FernetHandle) (db2 : DB),
        encrypt_password master_password entropy now db = .ok (f, db2)) ∧
    (∀ (service : String) (fernet : FernetHandle) (db : DB) (r : Row) (k m : Bytes),
      db.entries.find? (fun x => x.service == service) = some r →
      r.password = fernetEncrypt k m →
      fernet.key ≠ k →
      get_entry service fernet db = .error .integrityError) := by
  constructor
  · intro master_password entropy now db
    exact ⟨_, _, encrypt_password_ok master_password entropy now db⟩
  · intro service fernet db r k m hfind hpw hne
    apply get_entry_propagates service fernet db r .integrityError hfind
    rw [hpw]
    exact fernetDecrypt_wrong_key m hne

theorem claim_C10_witness :
    (∃ (f : FernetHandle) (db2 : DB),
      encrypt_password "pw" (fun n => n) "t" emptyDB = .ok (f, db2)) ∧
    (([1] : Bytes) ≠ [0]) ∧
    get_entry "svc" ⟨[1]⟩ (⟨none, [⟨"svc", "u", fernetEncrypt [0] [7], "t"⟩]⟩ : DB)
      = .error .integrityError :=
  ⟨claim_C10.1 "pw" (fun n => n) "t" emptyDB,
   by decide,
   claim_C10.2 "svc" ⟨[1]⟩ (⟨none, [⟨"svc", "u", fernetEncrypt [0] [7], "t"⟩]⟩ : DB)
     ⟨"svc", "u", fernetEncrypt [0] [7], "t"⟩ [0] [7] (by simp) rfl (by decide)⟩

end PasswordManager
